import Mathlib

/-!
Verification of the chunking engine of `index_documents.py`
(function `split_text`, lines 92-127).

Texts are modelled as `List Char` (Python strings indexed by code point).
Whitespace is modelled by the ASCII fragment of Python's `\s` / `str.strip()`
class: space, tab, newline, carriage return, vertical tab, form feed.

The two `re.split` calls are modelled operationally:
  * `splitSentences` models `re.split(r'(?<=[.!?])\s+', text)`: the text is
    cut at every maximal whitespace run immediately preceded by `.`, `!` or
    `?`; the run is consumed; if the text ends in such a run the final
    segment is empty (exactly as `re.split` behaves).
  * `splitParagraphs` models `re.split(r'\n\s*\n', text)`: a separator is a
    newline followed by the longest whitespace prefix that still ends in a
    newline (greedy `\s*` with backtracking); the scan resumes after the
    last newline of the whitespace run.

The fixed-strategy `while` loop is modelled with explicit fuel
(`fixedLoop`); running out of fuel returns `none`, so non-termination of the
Python loop is observable in the model.  `fixedChunks` runs the loop with
fuel `text.length + 1`, which is proved sufficient whenever
`overlap < chunk_size`.
-/

/-- ASCII fragment of Python's whitespace class `\s` (also used by
`str.strip()`). -/
def isSpace (c : Char) : Bool :=
  c = ' ' || c = '\t' || c = '\n' || c = '\r' || c = '\x0B' || c = '\x0C'

/-- The sentence boundary markers of the regex `(?<=[.!?])\s+`. -/
def isPunct (c : Char) : Bool :=
  c = '.' || c = '!' || c = '?'

/-- Does the list begin with a whitespace character? (`\s+` can match here.) -/
def startsWithSpace : List Char → Bool
  | [] => false
  | c :: _ => isSpace c

/-- Does the maximal whitespace run starting at the head of the list contain
a newline?  This is exactly the condition under which `\s*\n` can match at
this position. -/
def wsRunHasNewline : List Char → Bool
  | [] => false
  | c :: rest => isSpace c && (c = '\n' || wsRunHasNewline rest)

/-- Python `str.strip()`: remove trailing whitespace, then leading
whitespace. -/
def strip (l : List Char) : List Char :=
  (((l.reverse).dropWhile isSpace).reverse).dropWhile isSpace

/-- State machine for `re.split(r'(?<=[.!?])\s+', text)`.  `acc` is the
current segment, reversed; `inSep` records that we are inside a separator
(a whitespace run preceded by a boundary marker).  When the input ends
inside a separator the final segment is empty, as in `re.split`. -/
def sentGo : List Char → List Char → Bool → List (List Char)
  | [], acc, inSep => if inSep then [[]] else [acc.reverse]
  | c :: rest, acc, inSep =>
    if inSep then
      if isSpace c then sentGo rest acc true
      else if isPunct c && startsWithSpace rest then [c] :: sentGo rest [] true
      else sentGo rest [c] false
    else
      if isPunct c && startsWithSpace rest then
        (acc.reverse ++ [c]) :: sentGo rest [] true
      else sentGo rest (c :: acc) false

/-- `re.split(r'(?<=[.!?])\s+', text)` (line 106 of the source). -/
def splitSentences (text : List Char) : List (List Char) :=
  sentGo text [] false

/-- State machine for `re.split(r'\n\s*\n', text)`.  In the separator state
the scan consumes whitespace until the last newline of the run (greedy
`\s*` with backtracking keeps every newline it can and must end on one). -/
def paraGo : List Char → List Char → Bool → List (List Char)
  | [], acc, _ => [acc.reverse]
  | c :: rest, acc, inSep =>
    if inSep then
      if c = '\n' && !wsRunHasNewline rest then paraGo rest [] false
      else paraGo rest acc true
    else
      if c = '\n' && wsRunHasNewline rest then
        acc.reverse :: paraGo rest [] true
      else paraGo rest (c :: acc) false

/-- `re.split(r'\n\s*\n', text)` (line 119 of the source). -/
def splitParagraphs (text : List Char) : List (List Char) :=
  paraGo text [] false

/-- The accumulation loop of the `sentence` strategy (lines 107-115):
greedily extend `cur` with `sentence + " "` while
`len(current_chunk) + len(sentence) < chunk_size`, otherwise emit
`current_chunk.strip()` and restart from the sentence; finally flush a
non-empty buffer. -/
def sentenceFold (cs : Nat) : List (List Char) → List Char → List (List Char)
  | [], cur => if cur ≠ [] then [strip cur] else []
  | s :: rest, cur =>
    if cur.length + s.length < cs then
      sentenceFold cs rest (cur ++ s ++ [' '])
    else
      strip cur :: sentenceFold cs rest (s ++ [' '])

/-- Fuel-indexed model of the `fixed` strategy loop (lines 98-102):
`while start < len(text): chunks.append(text[start:start+chunk_size]);
start += chunk_size - overlap`.  `none` means the fuel ran out, i.e. the
loop made more iterations than the fuel allows. -/
def fixedLoop (cs ov : Nat) (text : List Char) : Nat → Nat → Option (List (List Char))
  | _, 0 => none
  | start, fuel + 1 =>
    if start < text.length then
      (fixedLoop cs ov text (start + (cs - ov)) fuel).map
        (fun rest => ((text.drop start).take cs) :: rest)
    else
      some []

/-- The chunk list produced by the `fixed` strategy, running the loop with
fuel `text.length + 1` (proved sufficient when `overlap < chunk_size`;
when `overlap ≥ chunk_size` the Python loop never terminates on non-empty
text and the model defaults to `[]`). -/
def fixedChunks (text : List Char) (cs ov : Nat) : List (List Char) :=
  (fixedLoop cs ov text 0 (text.length + 1)).getD []

/-- `split_text(text, strategy, chunk_size, overlap)` (lines 92-127).
Raising `ValueError` is modelled by `Except.error`; every returning path
applies the final filter `[c for c in chunks if c]` (line 127).  The
paragraph fallback `return split_text(text, 'fixed', chunk_size, overlap)`
(line 122) is inlined: it produces exactly what the `fixed` branch
produces. -/
def split_text (text : List Char) (strategy : String) (cs ov : Nat) :
    Except String (List (List Char)) :=
  if strategy = "fixed" then
    Except.ok ((fixedChunks text cs ov).filter (fun c => c ≠ []))
  else if strategy = "sentence" then
    Except.ok ((sentenceFold cs (splitSentences text) []).filter (fun c => c ≠ []))
  else if strategy = "paragraph" then
    let paras := ((splitParagraphs text).filter (fun p => strip p ≠ [])).map strip
    if paras = [] then
      Except.ok ((fixedChunks text cs ov).filter (fun c => c ≠ []))
    else
      Except.ok (paras.filter (fun c => c ≠ []))
  else
    Except.error "Unknown strategy. Choose: fixed, sentence, paragraph"

/-- Join a group of sentences with exactly one space between consecutive
sentences (what the accumulation `current_chunk += sentence + " "` builds,
up to the trailing space removed by `strip`). -/
def joinSp : List (List Char) → List Char
  | [] => []
  | [s] => s
  | s :: rest => s ++ [' '] ++ joinSp rest

/-- Undo the overlap of the `fixed` strategy: keep the first chunk whole and
drop the first `ov` characters of every later chunk, then concatenate. -/
def reconstruct (ov : Nat) : List (List Char) → List Char
  | [] => []
  | c :: rest => c ++ (rest.map (List.drop ov)).flatten

/-- Relation between the group of sentences already accumulated and the
contents of `current_chunk` inside the `sentence` strategy loop. -/
def curRel (cs : Nat) (g : List (List Char)) (cur : List Char) : Prop :=
  (g = [] ∧ cur = []) ∨
  (∃ s, g = [s] ∧ cur = s ++ [' ']) ∨
  (g ≠ [] ∧ cur = joinSp g ++ [' '] ∧ cur.length ≤ cs)

/-! ### Helper lemmas about `strip` -/

theorem dropWhile_head_false {p : Char → Bool} {l t : List Char} {a : Char}
    (h : l.dropWhile p = a :: t) : p a = false := by
  induction l with
  | nil => simp at h
  | cons c l ih =>
    rw [List.dropWhile_cons] at h
    split at h
    · exact ih h
    · rename_i hc
      injection h with h1 _
      cases h1
      simpa using hc

theorem strip_append_space (l : List Char) : strip (l ++ [' ']) = strip l := by
  have h : isSpace ' ' = true := rfl
  simp [strip, List.reverse_append, List.dropWhile_cons, h]

theorem strip_length_le (l : List Char) : (strip l).length ≤ l.length := by
  unfold strip
  calc ((((l.reverse).dropWhile isSpace).reverse).dropWhile isSpace).length
      ≤ (((l.reverse).dropWhile isSpace).reverse).length :=
        (List.dropWhile_suffix isSpace).length_le
    _ = ((l.reverse).dropWhile isSpace).length := List.length_reverse _
    _ ≤ l.reverse.length := (List.dropWhile_suffix isSpace).length_le
    _ = l.length := List.length_reverse _

theorem strip_eq_nil_iff (l : List Char) : strip l = [] ↔ ∀ c ∈ l, isSpace c := by
  constructor
  · intro h c hc
    have hY := List.dropWhile_eq_nil_iff.mp h
    have hc2 : c ∈ l.reverse := List.mem_reverse.mpr hc
    rw [← List.takeWhile_append_dropWhile (p := isSpace) (l := l.reverse)] at hc2
    rcases List.mem_append.mp hc2 with h1 | h1
    · exact List.mem_takeWhile_imp h1
    · exact hY c (List.mem_reverse.mpr h1)
  · intro h
    have h1 : l.reverse.dropWhile isSpace = [] :=
      List.dropWhile_eq_nil_iff.mpr (fun x hx => h x (List.mem_reverse.mp hx))
    simp [strip, h1]

theorem strip_strip_ne_nil {x : List Char} (h : strip x ≠ []) :
    strip (strip x) ≠ [] := by
  intro hcon
  obtain ⟨a, t, ha⟩ : ∃ a t, strip x = a :: t := by
    cases hx : strip x with
    | nil => exact absurd hx h
    | cons a t => exact ⟨a, t, rfl⟩
  have hsp : isSpace a = false := dropWhile_head_false ha
  have hall := (strip_eq_nil_iff _).mp hcon
  have := hall a (by rw [ha]; exact List.mem_cons_self a t)
  rw [this] at hsp
  cases hsp

/-! ### Helper lemmas about the fixed-strategy loop -/

theorem fixedLoop_isSome {cs ov : Nat} (hov : ov < cs) (text : List Char) :
    ∀ fuel start, text.length - start < fuel →
      (fixedLoop cs ov text start fuel).isSome = true := by
  intro fuel
  induction fuel with
  | zero => intro start h; exact absurd h (Nat.not_lt_zero _)
  | succ fuel ih =>
    intro start h
    rw [fixedLoop]
    by_cases hs : start < text.length
    · rw [if_pos hs]
      have h2 : text.length - (start + (cs - ov)) < fuel := by omega
      have h3 := ih (start + (cs - ov)) h2
      obtain ⟨r, hr⟩ := Option.isSome_iff_exists.mp h3
      rw [hr]
      rfl
    · rw [if_neg hs]
      rfl

theorem fixedChunks_loop_eq {cs ov : Nat} (hov : ov < cs) (text : List Char) :
    fixedLoop cs ov text 0 (text.length + 1) = some (fixedChunks text cs ov) := by
  have h := fixedLoop_isSome hov text (text.length + 1) 0 (by omega)
  unfold fixedChunks
  obtain ⟨r, hr⟩ := Option.isSome_iff_exists.mp h
  rw [hr]
  rfl

theorem fixedLoop_mem_length {cs ov : Nat} {text : List Char} :
    ∀ {fuel start r}, fixedLoop cs ov text start fuel = some r →
      ∀ c ∈ r, c.length ≤ cs := by
  intro fuel
  induction fuel with
  | zero => intro start r h; simp [fixedLoop] at h
  | succ fuel ih =>
    intro start r h c hc
    rw [fixedLoop] at h
    split at h
    · rw [Option.map_eq_some'] at h
      obtain ⟨rest, hrest, hcons⟩ := h
      rw [← hcons] at hc
      rcases List.mem_cons.mp hc with h1 | h1
      · rw [h1]; exact ((text.drop start).length_take_le cs)
      · exact ih hrest c h1
    · injection h with h1
      rw [← h1] at hc
      simp at hc

theorem fixedLoop_mem_ne_nil {cs ov : Nat} {text : List Char} (hcs : 0 < cs) :
    ∀ {fuel start r}, fixedLoop cs ov text start fuel = some r →
      ∀ c ∈ r, c ≠ [] := by
  intro fuel
  induction fuel with
  | zero => intro start r h; simp [fixedLoop] at h
  | succ fuel ih =>
    intro start r h c hc
    rw [fixedLoop] at h
    split at h
    · rename_i hs
      rw [Option.map_eq_some'] at h
      obtain ⟨rest, hrest, hcons⟩ := h
      rw [← hcons] at hc
      rcases List.mem_cons.mp hc with h1 | h1
      · rw [h1]
        intro hnil
        rw [List.take_eq_nil_iff] at hnil
        rcases hnil with h2 | h2
        · omega
        · rw [List.drop_eq_nil_iff] at h2
          omega
      · exact ih hrest c h1
    · injection h with h1
      rw [← h1] at hc
      simp at hc

theorem fixedLoop_flatten_drop {cs ov : Nat} {text : List Char} (hov : ov ≤ cs) :
    ∀ {fuel start r}, fixedLoop cs ov text start fuel = some r →
      ((r.map (List.drop ov)).flatten) = text.drop (start + ov) := by
  intro fuel
  induction fuel with
  | zero => intro start r h; simp [fixedLoop] at h
  | succ fuel ih =>
    intro start r h
    rw [fixedLoop] at h
    split at h
    · rename_i hs
      rw [Option.map_eq_some'] at h
      obtain ⟨rest, hrest, hcons⟩ := h
      rw [← hcons]
      simp only [List.map_cons, List.flatten_cons]
      rw [ih hrest]
      rw [List.drop_take, List.drop_drop]
      have h1 : start + (cs - ov) + ov = start + cs := by omega
      rw [h1]
      have h3 : text.drop (start + cs) = (text.drop (start + ov)).drop (cs - ov) := by
        rw [List.drop_drop]
        congr 1
        omega
      rw [h3, List.take_append_drop]
    · rename_i hs
      injection h with h1
      rw [← h1]
      simp only [List.map_nil, List.flatten_nil]
      rw [eq_comm, List.drop_eq_nil_iff]
      omega

/-! ### Unfolding lemmas for `split_text` -/

theorem split_text_fixed (text : List Char) (cs ov : Nat) :
    split_text text "fixed" cs ov =
      Except.ok ((fixedChunks text cs ov).filter (fun c => c ≠ [])) := rfl

theorem split_text_sentence (text : List Char) (cs ov : Nat) :
    split_text text "sentence" cs ov =
      Except.ok ((sentenceFold cs (splitSentences text) []).filter (fun c => c ≠ [])) := rfl

theorem split_text_paragraph (text : List Char) (cs ov : Nat) :
    split_text text "paragraph" cs ov =
      if ((splitParagraphs text).filter (fun p => strip p ≠ [])).map strip = [] then
        Except.ok ((fixedChunks text cs ov).filter (fun c => c ≠ []))
      else
        Except.ok
          ((((splitParagraphs text).filter (fun p => strip p ≠ [])).map strip).filter
            (fun c => c ≠ [])) := rfl

/-- C3: for every text and all parameters with `chunk_size > overlap ≥ 0`,
the `fixed`-strategy `while` loop terminates: the window start grows by
`chunk_size - overlap ≥ 1` per iteration and the loop stops once the start
reaches or passes the text length, so fuel `text.length + 1` always
suffices for the loop to complete. -/
theorem fixed_strategy_terminates (text : List Char) (cs ov : Nat) (hov : ov < cs) :
    (fixedLoop cs ov text 0 (text.length + 1)).isSome = true :=
  fixedLoop_isSome hov text (text.length + 1) 0 (by omega)

theorem fixed_strategy_terminates_witness :
    (fixedLoop 2 1 ("abc".toList) 0 (("abc".toList).length + 1)).isSome = true :=
  fixed_strategy_terminates ("abc".toList) 2 1 (by decide)

/-- C5: for `chunk_size > overlap ≥ 0`, every chunk returned by
`split_text` with strategy `fixed` has length at most `chunk_size`.  The
code satisfies the bound with no exception at all: even the last chunk is a
slice `text[start:start+chunk_size]` and hence no longer than
`chunk_size`. -/
theorem fixed_chunk_size_bound (text : List Char) (cs ov : Nat)
    (chunks : List (List Char)) (hov : ov < cs)
    (h : split_text text "fixed" cs ov = Except.ok chunks) :
    ∀ c ∈ chunks, c.length ≤ cs := by
  have hloop := fixedChunks_loop_eq hov text
  rw [split_text_fixed] at h
  injection h with h
  intro c hc
  rw [← h] at hc
  exact fixedLoop_mem_length hloop c (List.mem_filter.mp hc).1

theorem fixed_chunk_size_bound_witness : ("AAAAA".toList).length ≤ 5 :=
  fixed_chunk_size_bound ("AAAAABBBBBCCCCC".toList) 5 0
    ["AAAAA".toList, "BBBBB".toList, "CCCCC".toList] (by decide) rfl
    ("AAAAA".toList) (by decide)

/-- C4: for `chunk_size > overlap ≥ 0`, the chunks returned by `split_text`
with strategy `fixed` cover the text exactly: keeping the first chunk whole
and dropping the first `overlap` characters (the part repeated from the
previous window) of every later chunk, the concatenation is the original
text. -/
theorem fixed_chunks_reconstruct_text (text : List Char) (cs ov : Nat)
    (chunks : List (List Char)) (hov : ov < cs)
    (h : split_text text "fixed" cs ov = Except.ok chunks) :
    reconstruct ov chunks = text := by
  have hloop := fixedChunks_loop_eq hov text
  rw [split_text_fixed] at h
  injection h with h
  have hne : ∀ c ∈ fixedChunks text cs ov, c ≠ [] :=
    fixedLoop_mem_ne_nil (by omega) hloop
  have hfilter : (fixedChunks text cs ov).filter (fun c => c ≠ []) =
      fixedChunks text cs ov :=
    List.filter_eq_self.mpr (by intro a ha; simpa using hne a ha)
  rw [hfilter] at h
  rw [← h]
  rw [fixedLoop] at hloop
  split at hloop
  · rw [Option.map_eq_some'] at hloop
    obtain ⟨rest, hrest, hcons⟩ := hloop
    rw [← hcons, reconstruct]
    rw [fixedLoop_flatten_drop (Nat.le_of_lt hov) hrest]
    simp only [List.drop_zero, Nat.zero_add]
    have h1 : cs - ov + ov = cs := by omega
    rw [h1, List.take_append_drop]
  · rename_i hs
    injection hloop with h2
    rw [← h2]
    have h3 : text = [] := List.eq_nil_of_length_eq_zero (by omega)
    rw [h3]
    rfl

theorem fixed_chunks_reconstruct_text_witness :
    reconstruct 3 ["abcde".toList, "cdefg".toList, "efg".toList, ['g']] =
      "abcdefg".toList :=
  fixed_chunks_reconstruct_text ("abcdefg".toList) 5 3
    ["abcde".toList, "cdefg".toList, "efg".toList, ['g']] (by decide) rfl

/-! ### Helper lemmas about the sentence-strategy loop -/

theorem joinSp_append_single {g : List (List Char)} (hg : g ≠ []) (s : List Char) :
    joinSp (g ++ [s]) = joinSp g ++ [' '] ++ s := by
  induction g with
  | nil => exact absurd rfl hg
  | cons a g ih =>
    cases g with
    | nil => rfl
    | cons b g2 =>
      show a ++ [' '] ++ joinSp ((b :: g2) ++ [s]) =
        (a ++ [' '] ++ joinSp (b :: g2)) ++ [' '] ++ s
      rw [ih (by simp)]
      simp [List.append_assoc]

theorem curRel_chunk {cs : Nat} {g : List (List Char)} {cur : List Char}
    (h : curRel cs g cur) : strip cur = strip (joinSp g) := by
  rcases h with ⟨rfl, rfl⟩ | ⟨s, rfl, rfl⟩ | ⟨hg, hcur, hlen⟩
  · rfl
  · rw [strip_append_space]
    rfl
  · rw [hcur, strip_append_space]

theorem curRel_good {cs : Nat} {g : List (List Char)} {cur : List Char}
    (hcs : 0 < cs) (h : curRel cs g cur) :
    (strip (joinSp g)).length < cs ∨ ∃ s, g = [s] := by
  rcases h with ⟨rfl, rfl⟩ | ⟨s, rfl, hcur⟩ | ⟨hg, hcur, hlen⟩
  · left
    simpa [joinSp, strip] using hcs
  · right
    exact ⟨s, rfl⟩
  · left
    calc (strip (joinSp g)).length ≤ (joinSp g).length := strip_length_le _
      _ < cs := by
          rw [hcur] at hlen
          simp [List.length_append] at hlen
          omega

theorem curRel_extend {cs : Nat} {g : List (List Char)} {cur s : List Char}
    (h : curRel cs g cur) (hlen : cur.length + s.length < cs) :
    curRel cs (g ++ [s]) (cur ++ s ++ [' ']) := by
  rcases h with ⟨rfl, rfl⟩ | ⟨s0, rfl, rfl⟩ | ⟨hg, hcur, hl⟩
  · exact Or.inr (Or.inl ⟨s, rfl, by simp⟩)
  · refine Or.inr (Or.inr ⟨by simp, ?_, ?_⟩)
    · simp [joinSp, List.append_assoc]
    · simp only [List.length_append, List.length_cons, List.length_nil] at hlen ⊢
      omega
  · refine Or.inr (Or.inr ⟨by simp, ?_, ?_⟩)
    · rw [hcur, joinSp_append_single hg]
    · simp only [List.length_append, List.length_cons, List.length_nil] at hlen ⊢
      omega

theorem sentenceFold_groups (cs : Nat) (hcs : 0 < cs) :
    ∀ (sentences : List (List Char)) (cur : List Char) (g : List (List Char)),
      curRel cs g cur →
      ∃ ext groups,
        ext ++ groups.flatten = sentences ∧
        (sentenceFold cs sentences cur).filter (fun c => c ≠ []) =
          (((g ++ ext) :: groups).map (fun h => strip (joinSp h))).filter
            (fun c => c ≠ []) ∧
        ((strip (joinSp (g ++ ext))).length < cs ∨ ∃ s, g ++ ext = [s]) ∧
        (∀ h ∈ groups, (strip (joinSp h)).length < cs ∨ ∃ s, h = [s]) := by
  intro sentences
  induction sentences with
  | nil =>
    intro cur g hrel
    refine ⟨[], [], rfl, ?_, ?_, by simp⟩
    · rw [sentenceFold, List.append_nil]
      by_cases hc : cur = []
      · have hg : g = [] := by
          rcases hrel with ⟨h1, _⟩ | ⟨s, _, habs⟩ | ⟨_, habs, _⟩
          · exact h1
          · rw [hc] at habs
            exact absurd habs.symm (by simp)
          · rw [hc] at habs
            exact absurd habs.symm (by simp)
        rw [hc, hg, if_neg (by simp)]
        simp [joinSp, strip]
      · rw [if_pos hc, curRel_chunk hrel]
        simp
    · rw [List.append_nil]
      exact curRel_good hcs hrel
  | cons s rest ih =>
    intro cur g hrel
    rw [sentenceFold]
    by_cases hlen : cur.length + s.length < cs
    · rw [if_pos hlen]
      obtain ⟨ext, groups, hjoin, hout, hgood, hgoods⟩ :=
        ih (cur ++ s ++ [' ']) (g ++ [s]) (curRel_extend hrel hlen)
      have hassoc : g ++ s :: ext = (g ++ [s]) ++ ext := by simp
      refine ⟨s :: ext, groups, ?_, ?_, ?_, hgoods⟩
      · simp [hjoin]
      · rw [hassoc]
        exact hout
      · rw [hassoc]
        exact hgood
    · rw [if_neg hlen]
      obtain ⟨ext, groups, hjoin, hout, hgood, hgoods⟩ :=
        ih (s ++ [' ']) [s] (Or.inr (Or.inl ⟨s, rfl, rfl⟩))
      refine ⟨[], ([s] ++ ext) :: groups, ?_, ?_, ?_, ?_⟩
      · simp [hjoin]
      · rw [List.filter_cons, List.append_nil]
        simp only [List.map_cons]
        rw [List.filter_cons, curRel_chunk hrel, hout]
        simp only [List.map_cons]
      · rw [List.append_nil]
        exact curRel_good hcs hrel
      · intro h hh
        rcases List.mem_cons.mp hh with h1 | h1
        · rw [h1]
          exact hgood
        · exact hgoods h h1

theorem mem_filter_ne_nil {c : List Char} {L : List (List Char)}
    (hc : c ∈ L.filter (fun c => c ≠ [])) : c ≠ [] := by
  have h := (List.mem_filter.mp hc).2
  simpa using h

theorem sentenceFold_mem_strip (cs : Nat) :
    ∀ (sentences : List (List Char)) (cur c : List Char),
      c ∈ sentenceFold cs sentences cur → ∃ x, c = strip x := by
  intro sentences
  induction sentences with
  | nil =>
    intro cur c hc
    rw [sentenceFold] at hc
    split at hc
    · rw [List.mem_singleton] at hc
      exact ⟨cur, hc⟩
    · simp at hc
  | cons s rest ih =>
    intro cur c hc
    rw [sentenceFold] at hc
    split at hc
    · exact ih _ c hc
    · rcases List.mem_cons.mp hc with h1 | h1
      · exact ⟨cur, h1⟩
      · exact ih _ c h1

/-! ### Helper lemmas about the paragraph splitter -/

theorem paraGo_all_space :
    ∀ (l acc : List Char) (inSep : Bool),
      (∀ c ∈ l, isSpace c = true) → (∀ c ∈ acc, isSpace c = true) →
      ∀ seg ∈ paraGo l acc inSep, ∀ c ∈ seg, isSpace c = true := by
  intro l
  induction l with
  | nil =>
    intro acc inSep hl hacc seg hseg c hcseg
    rw [paraGo, List.mem_singleton] at hseg
    rw [hseg] at hcseg
    exact hacc c (List.mem_reverse.mp hcseg)
  | cons a rest ih =>
    intro acc inSep hl hacc seg hseg c hcseg
    have hrest : ∀ c ∈ rest, isSpace c = true :=
      fun c hc => hl c (List.mem_cons_of_mem a hc)
    rw [paraGo] at hseg
    split at hseg
    · split at hseg
      · exact ih [] false hrest (by simp) seg hseg c hcseg
      · exact ih acc true hrest hacc seg hseg c hcseg
    · split at hseg
      · rcases List.mem_cons.mp hseg with h1 | h1
        · rw [h1] at hcseg
          exact hacc c (List.mem_reverse.mp hcseg)
        · exact ih [] true hrest (by simp) seg h1 c hcseg
      · refine ih (a :: acc) false hrest ?_ seg hseg c hcseg
        intro d hd
        rcases List.mem_cons.mp hd with h1 | h1
        · rw [h1]
          exact hl a (List.mem_cons_self a rest)
        · exact hacc d h1

theorem paraGo_nonspace_mem :
    ∀ (l acc : List Char) (inSep : Bool) (x : Char),
      (inSep = true → wsRunHasNewline l = true) →
      ((x ∈ l ∧ isSpace x = false) ∨ (inSep = false ∧ x ∈ acc)) →
      ∃ seg, seg ∈ paraGo l acc inSep ∧ x ∈ seg := by
  intro l
  induction l with
  | nil =>
    intro acc inSep x hinv hx
    rcases hx with ⟨hmem, _⟩ | ⟨hsep, hmem⟩
    · simp at hmem
    · exact ⟨acc.reverse, by rw [paraGo]; exact List.mem_singleton.mpr rfl,
        List.mem_reverse.mpr hmem⟩
  | cons a rest ih =>
    intro acc inSep x hinv hx
    rw [paraGo]
    cases inSep with
    | true =>
      have hrun : wsRunHasNewline (a :: rest) = true := hinv rfl
      have hasp : isSpace a = true := by
        rw [wsRunHasNewline, Bool.and_eq_true] at hrun
        exact hrun.1
      rcases hx with ⟨hmem, hns⟩ | ⟨hfalse, _⟩
      swap
      · cases hfalse
      have hxrest : x ∈ rest := by
        rcases List.mem_cons.mp hmem with h1 | h1
        · rw [h1] at hns
          rw [hasp] at hns
          cases hns
        · exact h1
      rw [if_pos rfl]
      by_cases hcond : (a = '\n' && !wsRunHasNewline rest) = true
      · rw [if_pos hcond]
        exact ih [] false x (fun hcon => nomatch hcon) (Or.inl ⟨hxrest, hns⟩)
      · rw [if_neg hcond]
        refine ih acc true x ?_ (Or.inl ⟨hxrest, hns⟩)
        intro _
        rw [wsRunHasNewline, Bool.and_eq_true] at hrun
        have h2 := hrun.2
        by_cases hna : a = '\n'
        · simp [hna] at hcond
          exact hcond
        · simp [hna] at h2
          exact h2
    | false =>
      rw [if_neg (fun hcon => nomatch hcon)]
      by_cases hcond : (a = '\n' && wsRunHasNewline rest) = true
      · rw [if_pos hcond]
        rw [Bool.and_eq_true] at hcond
        have hrun : wsRunHasNewline rest = true := hcond.2
        have hna : a = '\n' := by
          have h1 := hcond.1
          simpa using h1
        rcases hx with ⟨hmem, hns⟩ | ⟨_, hmemacc⟩
        · have hxrest : x ∈ rest := by
            rcases List.mem_cons.mp hmem with h1 | h1
            · rw [h1, hna] at hns
              cases hns
            · exact h1
          obtain ⟨seg, hseg, hxs⟩ :=
            ih [] true x (fun _ => hrun) (Or.inl ⟨hxrest, hns⟩)
          exact ⟨seg, List.mem_cons_of_mem _ hseg, hxs⟩
        · exact ⟨acc.reverse, List.mem_cons_self _ _, List.mem_reverse.mpr hmemacc⟩
      · rw [if_neg hcond]
        refine ih (a :: acc) false x (fun hcon => nomatch hcon) ?_
        rcases hx with ⟨hmem, hns⟩ | ⟨_, hmemacc⟩
        · rcases List.mem_cons.mp hmem with h1 | h1
          · exact Or.inr ⟨rfl, by rw [h1]; exact List.mem_cons_self a acc⟩
          · exact Or.inl ⟨h1, hns⟩
        · exact Or.inr ⟨rfl, List.mem_cons_of_mem a hmemacc⟩

/-- C6: for every text and `chunk_size > 0`, the chunks of the `sentence`
strategy partition the raw sentence list into consecutive groups, each
chunk being its group joined (with single spaces) and stripped — so no
sentence is ever split across two chunks — and every group either yields a
chunk of length strictly below `chunk_size` or consists of exactly one
(possibly oversized) sentence. -/
theorem sentence_never_splits_sentence (text : List Char) (cs ov : Nat)
    (chunks : List (List Char)) (hcs : 0 < cs)
    (h : split_text text "sentence" cs ov = Except.ok chunks) :
    ∃ groups : List (List (List Char)),
      groups.flatten = splitSentences text ∧
      chunks = (groups.map (fun g => strip (joinSp g))).filter (fun c => c ≠ []) ∧
      ∀ g ∈ groups, (strip (joinSp g)).length < cs ∨ ∃ s, g = [s] := by
  rw [split_text_sentence] at h
  injection h with h
  obtain ⟨ext, groups, hjoin, hout, hgood, hgoods⟩ :=
    sentenceFold_groups cs hcs (splitSentences text) [] [] (Or.inl ⟨rfl, rfl⟩)
  refine ⟨ext :: groups, by simpa using hjoin, ?_, ?_⟩
  · rw [← h, hout]
    simp
  · intro g hg
    rcases List.mem_cons.mp hg with h1 | h1
    · rw [h1]
      simpa using hgood
    · exact hgoods g h1

theorem sentence_never_splits_sentence_witness :
    ∃ groups : List (List (List Char)),
      groups.flatten = splitSentences ("Hello world. This is a test.".toList) ∧
      ["Hello world.".toList, "This is a test.".toList] =
        (groups.map (fun g => strip (joinSp g))).filter (fun c => c ≠ []) ∧
      ∀ g ∈ groups, (strip (joinSp g)).length < 15 ∨ ∃ s, g = [s] :=
  sentence_never_splits_sentence ("Hello world. This is a test.".toList) 15 50
    ["Hello world.".toList, "This is a test.".toList] (by decide) rfl

/-- C7: the end-to-end scenario: splitting "Hello world. This is a test."
with the `sentence` strategy and `chunk_size = 15` yields exactly the two
chunks "Hello world." and "This is a test.", in this order (for any
overlap, which the sentence strategy ignores). -/
theorem sentence_hello_scenario (ov : Nat) :
    split_text ("Hello world. This is a test.".toList) "sentence" 15 ov =
      Except.ok ["Hello world.".toList, "This is a test.".toList] := rfl

/-- C10: every chunk of the `sentence` strategy is a consecutive group of
raw sentences joined with exactly one space character between consecutive
sentences (then stripped), whatever whitespace separated them in the
input; consequently a chunk need not be a substring of the input text,
witnessed by the text "A.  B." (two spaces) whose unique chunk "A. B."
(one space) is not an infix of it. -/
theorem sentence_single_space_join :
    (∀ (text : List Char) (cs ov : Nat) (chunks : List (List Char)), 0 < cs →
      split_text text "sentence" cs ov = Except.ok chunks →
      ∃ groups : List (List (List Char)),
        groups.flatten = splitSentences text ∧
        chunks = (groups.map (fun g => strip (joinSp g))).filter (fun c => c ≠ [])) ∧
    (split_text ("A.  B.".toList) "sentence" 100 50 = Except.ok ["A. B.".toList] ∧
      ¬ ("A. B.".toList <:+: "A.  B.".toList)) := by
  constructor
  · intro text cs ov chunks hcs h
    rw [split_text_sentence] at h
    injection h with h
    obtain ⟨ext, groups, hjoin, hout, _, _⟩ :=
      sentenceFold_groups cs hcs (splitSentences text) [] [] (Or.inl ⟨rfl, rfl⟩)
    refine ⟨ext :: groups, by simpa using hjoin, ?_⟩
    rw [← h, hout]
    simp
  · exact ⟨rfl, by decide⟩

theorem sentence_single_space_join_witness :
    ∃ groups : List (List (List Char)),
      groups.flatten = splitSentences ("A.  B.".toList) ∧
      ["A. B.".toList] =
        (groups.map (fun g => strip (joinSp g))).filter (fun c => c ≠ []) :=
  sentence_single_space_join.1 ("A.  B.".toList) 100 50 ["A. B.".toList]
    (by decide) rfl

/-- C8: a strategy name outside fixed / sentence / paragraph makes
`split_text` fail with the ValueError message and produce no chunks (the
error value carries no partial output). -/
theorem unknown_strategy_errors (text : List Char) (strategy : String)
    (cs ov : Nat) (h1 : strategy ≠ "fixed") (h2 : strategy ≠ "sentence")
    (h3 : strategy ≠ "paragraph") :
    split_text text strategy cs ov =
      Except.error "Unknown strategy. Choose: fixed, sentence, paragraph" := by
  unfold split_text
  rw [if_neg h1, if_neg h2, if_neg h3]

theorem unknown_strategy_errors_witness :
    split_text [] "linear" 500 50 =
      Except.error "Unknown strategy. Choose: fixed, sentence, paragraph" :=
  unknown_strategy_errors [] "linear" 500 50 (by decide) (by decide) (by decide)

/-- C9: on the empty text every one of the three strategies returns the
empty chunk sequence, for all parameters with
`chunk_size > overlap ≥ 0`. -/
theorem empty_text_no_chunks (cs ov : Nat) (hov : ov < cs) :
    split_text [] "fixed" cs ov = Except.ok [] ∧
    split_text [] "sentence" cs ov = Except.ok [] ∧
    split_text [] "paragraph" cs ov = Except.ok [] := by
  have hcs : 0 < cs := by omega
  refine ⟨rfl, ?_, rfl⟩
  rw [split_text_sentence]
  show Except.ok ((sentenceFold cs [[]] []).filter (fun c => c ≠ [])) =
    Except.ok []
  rw [sentenceFold, if_pos (by simpa using hcs)]
  rfl

theorem empty_text_no_chunks_witness :
    split_text [] "fixed" 500 50 = Except.ok [] ∧
    split_text [] "sentence" 500 50 = Except.ok [] ∧
    split_text [] "paragraph" 500 50 = Except.ok [] :=
  empty_text_no_chunks 500 50 (by decide)

/-- C1 counterexample: on the whitespace-only text " " the `fixed`
strategy (default parameters 500/50) returns the single chunk " ", which
is non-empty but whitespace-only (its strip is empty); the final filter of
`split_text` removes only empty chunks, so the claim that no strategy ever
returns a whitespace-only chunk is false. -/
theorem whitespace_chunk_counterexample :
    split_text [' '] "fixed" 500 50 = Except.ok [[' ']] ∧
    strip [' '] = [] ∧ ([' '] : List Char) ≠ [] :=
  ⟨rfl, rfl, by decide⟩

/-- C1 amended: no strategy ever returns an *empty* chunk; the `sentence`
strategy additionally never returns a whitespace-only chunk, and the
`paragraph` strategy never does so on any text containing a non-whitespace
character; only `fixed` (and the paragraph fallback to `fixed`, which
happens exactly on whitespace-only texts) can return whitespace-only
chunks, as the counterexample shows. -/
theorem no_empty_chunks_amended :
    (∀ (text : List Char) (strategy : String) (cs ov : Nat)
        (chunks : List (List Char)),
      split_text text strategy cs ov = Except.ok chunks →
      ∀ c ∈ chunks, c ≠ []) ∧
    (∀ (text : List Char) (cs ov : Nat) (chunks : List (List Char)),
      split_text text "sentence" cs ov = Except.ok chunks →
      ∀ c ∈ chunks, strip c ≠ []) ∧
    (∀ (text : List Char) (cs ov : Nat) (chunks : List (List Char)),
      split_text text "paragraph" cs ov = Except.ok chunks →
      (¬ ∀ c ∈ text, isSpace c = true) →
      ∀ c ∈ chunks, strip c ≠ []) := by
  refine ⟨?_, ?_, ?_⟩
  · intro text strategy cs ov chunks h c hc
    by_cases h1 : strategy = "fixed"
    · rw [h1, split_text_fixed] at h
      injection h with h
      rw [← h] at hc
      exact mem_filter_ne_nil hc
    by_cases h2 : strategy = "sentence"
    · rw [h2, split_text_sentence] at h
      injection h with h
      rw [← h] at hc
      exact mem_filter_ne_nil hc
    by_cases h3 : strategy = "paragraph"
    · rw [h3, split_text_paragraph] at h
      split at h
      · injection h with h
        rw [← h] at hc
        exact mem_filter_ne_nil hc
      · injection h with h
        rw [← h] at hc
        exact mem_filter_ne_nil hc
    · rw [split_text, if_neg h1, if_neg h2, if_neg h3] at h
      exact Except.noConfusion h
  · intro text cs ov chunks h c hc
    rw [split_text_sentence] at h
    injection h with h
    rw [← h] at hc
    have hne : c ≠ [] := mem_filter_ne_nil hc
    obtain ⟨x, rfl⟩ :=
      sentenceFold_mem_strip cs (splitSentences text) [] c
        (List.mem_filter.mp hc).1
    exact strip_strip_ne_nil hne
  · intro text cs ov chunks h hns c hc
    obtain ⟨x, hxmem, hxns⟩ : ∃ x, x ∈ text ∧ isSpace x = false := by
      push_neg at hns
      obtain ⟨x, hx1, hx2⟩ := hns
      exact ⟨x, hx1, by simpa using hx2⟩
    obtain ⟨seg, hseg, hxseg⟩ :=
      paraGo_nonspace_mem text [] false x (fun hcon => nomatch hcon)
        (Or.inl ⟨hxmem, hxns⟩)
    have hsegne : strip seg ≠ [] := by
      intro hcon
      have := (strip_eq_nil_iff seg).mp hcon x hxseg
      rw [this] at hxns
      cases hxns
    have hparas :
        ((splitParagraphs text).filter (fun p => strip p ≠ [])).map strip ≠ [] := by
      intro hcon
      have hmem : seg ∈ (splitParagraphs text).filter (fun p => strip p ≠ []) :=
        List.mem_filter.mpr ⟨hseg, by simpa using hsegne⟩
      have : strip seg ∈
          ((splitParagraphs text).filter (fun p => strip p ≠ [])).map strip :=
        List.mem_map_of_mem strip hmem
      rw [hcon] at this
      simp at this
    rw [split_text_paragraph, if_neg hparas] at h
    injection h with h
    rw [← h] at hc
    have hcmem := (List.mem_filter.mp hc).1
    obtain ⟨p, hp, rfl⟩ := List.mem_map.mp hcmem
    have hpne : strip p ≠ [] := by
      have := (List.mem_filter.mp hp).2
      simpa using this
    exact strip_strip_ne_nil hpne

theorem no_empty_chunks_amended_witness :
    (([' '] : List Char) ≠ []) ∧ strip ("Hi.".toList) ≠ [] :=
  ⟨no_empty_chunks_amended.1 [' '] "fixed" 500 50 [[' ']] rfl [' '] (by decide),
   no_empty_chunks_amended.2.1 ("Hi.".toList) 500 50 ["Hi.".toList] rfl
     ("Hi.".toList) (by decide)⟩

/-- C2 counterexample: the text "aaaaaaaaaaaa" contains no blank-line
separator (its paragraph split is the whole text as a single segment), yet
with `chunk_size = 10`, `overlap = 2` the `paragraph` strategy returns the
single chunk "aaaaaaaaaaaa" while the `fixed` strategy returns the two
windows "aaaaaaaaaa" and "aaaa": the fallback to `fixed` does not happen
merely because the text has no blank line. -/
theorem paragraph_fallback_counterexample :
    splitParagraphs ("aaaaaaaaaaaa".toList) = ["aaaaaaaaaaaa".toList] ∧
    split_text ("aaaaaaaaaaaa".toList) "paragraph" 10 2 ≠
      split_text ("aaaaaaaaaaaa".toList) "fixed" 10 2 := by
  refine ⟨rfl, ?_⟩
  intro h
  have h1 : split_text ("aaaaaaaaaaaa".toList) "paragraph" 10 2 =
      Except.ok ["aaaaaaaaaaaa".toList] := rfl
  have h2 : split_text ("aaaaaaaaaaaa".toList) "fixed" 10 2 =
      Except.ok ["aaaaaaaaaa".toList, "aaaa".toList] := rfl
  rw [h1, h2] at h
  injection h with h
  exact absurd h (by decide)

/-- C2 amended: the `paragraph` strategy falls back to `fixed` exactly when
splitting on blank lines yields no non-whitespace segment, i.e. precisely
on whitespace-only texts; for every whitespace-only text (the empty text
included) and all parameters with `overlap < chunk_size`, `paragraph`
returns the same chunk sequence as `fixed`.  (On a text with no blank-line
separator but at least one non-whitespace character it instead returns the
single chunk `strip text`, as the counterexample shows.) -/
theorem paragraph_whitespace_fallback (text : List Char) (cs ov : Nat)
    (_hov : ov < cs) (hws : ∀ c ∈ text, isSpace c = true) :
    split_text text "paragraph" cs ov = split_text text "fixed" cs ov := by
  rw [split_text_paragraph, split_text_fixed]
  have hsegs : ∀ seg ∈ splitParagraphs text, strip seg = [] := by
    intro seg hseg
    rw [strip_eq_nil_iff]
    intro c hc
    exact paraGo_all_space text [] false hws (by simp) seg hseg c hc
  have hfil : (splitParagraphs text).filter (fun p => strip p ≠ []) = [] := by
    rw [List.filter_eq_nil_iff]
    intro a ha
    simpa using hsegs a ha
  rw [hfil, List.map_nil, if_pos rfl]

theorem paragraph_whitespace_fallback_witness :
    split_text [' '] "paragraph" 500 50 = split_text [' '] "fixed" 500 50 :=
  paragraph_whitespace_fallback [' '] 500 50 (by decide) (by decide)
